import Mathlib

/-!
# Verification of the kanji-study compound selector and transcription segmenter

Shallow embedding of the two core algorithms of the repository:

* the compound-word relevance selector of `src/routes/api.ts` (the
  `wordsData` scan, tier classification, dedup and truncation,
  lines 178-237), and
* the transcription segmenter that turns a `[base|reading]`-annotated
  sentence into text/reading segments.  The segment-producing code is not
  present in the repository snapshot (only its consumer, the front-end
  renderer, and a flattened regex variant are); it is modelled from the
  specification's grammar.

Strings are modelled as their lists of unicode characters (`String.data`);
JavaScript truthiness of a string field is modelled as the string being
non-empty, and an absent (`undefined`) value as `Option.none`.
-/

namespace KanjiStudy

/-- One written/pronounced realization of a dictionary entry, as consumed by
the selector loop (`variant.written`, `variant.pronounced`,
`variant.priorities` in `api.ts`). -/
structure Variant where
  written : String
  pronounced : String
  priorities : List String
deriving DecidableEq, Repr

/-- One sense of a dictionary entry (`wordEntry.meanings[i]`), carrying its
gloss list. -/
structure WordMeaning where
  glosses : List String
deriving DecidableEq, Repr

/-- A candidate dictionary entry (`wordEntry` in the `api.ts` scan). -/
structure Entry where
  variants : List Variant
  meanings : List WordMeaning
deriving DecidableEq, Repr

/-- The externally visible compound-word record
(`{ word: written, reading: pronounced, meaning: gloss }` in `api.ts`). -/
structure Compound where
  word : String
  reading : String
  meaning : String
deriving DecidableEq, Repr

/-- The two growable tier lists of the scan
(`preferredCompounds` / `otherPriorityCompounds`). -/
structure ScanState where
  pref : List Compound
  other : List Compound
deriving DecidableEq, Repr

/-- `gloss = wordEntry.meanings && wordEntry.meanings[0] &&
wordEntry.meanings[0].glosses && wordEntry.meanings[0].glosses[0]`:
the first gloss of the first meaning, `none` when the meanings list is
empty, the first meaning has no glosses, or its first gloss is the empty
string (falsy in JavaScript). -/
def entryGloss (e : Entry) : Option String :=
  match e.meanings with
  | [] => none
  | m :: _ =>
    match m.glosses with
    | [] => none
    | g :: _ => if g = "" then none else some g

/-- `p.toLowerCase()` modelled character-wise with `Char.toLower`. -/
def toLowerStr (s : String) : String :=
  ⟨s.data.map Char.toLower⟩

/-- Substring containment on character lists (JavaScript
`haystack.includes(needle)`). -/
def hasSubstring (needle : List Char) : List Char → Bool
  | [] => needle.isEmpty
  | c :: t => needle.isPrefixOf (c :: t) || hasSubstring needle t

/-- The regex `/^news[12]$/` of the `preferredTags` list. -/
def newsTag (p : String) : Bool :=
  p == "news1" || p == "news2"

/-- The regex `/^nf0[1-9]$/` of the `preferredTags` list (finite anchored
language, written out by extension). -/
def nf0Tag (p : String) : Bool :=
  p == "nf01" || p == "nf02" || p == "nf03" || p == "nf04" || p == "nf05" ||
  p == "nf06" || p == "nf07" || p == "nf08" || p == "nf09"

/-- The regex `/^nf1[0-5]$/` of the `preferredTags` list. -/
def nf1Tag (p : String) : Bool :=
  p == "nf10" || p == "nf11" || p == "nf12" || p == "nf13" || p == "nf14" ||
  p == "nf15"

/-- The `preferredTags` array of `api.ts` line 181. -/
def preferredTagList : List (String → Bool) :=
  [newsTag, nf0Tag, nf1Tag]

/-- The `isPreferred` computation (`api.ts` lines 198-206): some priority
tag of the variant matches some pattern of `preferredTagList`. -/
def isPreferredPriorities (priorities : List String) : Bool :=
  preferredTagList.any (fun pat => priorities.any pat)

/-- The eligibility conjunction of the variant loop (`api.ts` lines
188-197): truthy written/pronounced forms, written form distinct from the
anchor, containing the anchor, at most 4 characters long, first gloss not
equal (case-insensitively) to a known non-empty anchor meaning, and a
non-empty priority list.  `g` is the entry's first gloss (already known to
be truthy). -/
def eligibleV (anchor : String) (anchorMeaning : Option String) (g : String)
    (v : Variant) : Bool :=
  v.written != "" && v.pronounced != "" &&
  v.written != anchor &&
  hasSubstring anchor.data v.written.data &&
  decide (v.written.length ≤ 4) &&
  (match anchorMeaning with
   | some m => !(decide (m ≠ "") && (toLowerStr g == m))
   | none => true) &&
  !v.priorities.isEmpty

/-- The tier push of `api.ts` lines 208-212: a preferred variant goes to
the preferred tier while it holds fewer than 5 entries, otherwise (also
when a preferred variant overflows) to the other tier while that holds
fewer than 5 entries, otherwise it is dropped. -/
def classify (s : ScanState) (c : Compound) (isPref : Bool) : ScanState :=
  if isPref && decide (s.pref.length < 5) then
    { s with pref := s.pref ++ [c] }
  else if s.other.length < 5 then
    { s with other := s.other ++ [c] }
  else s

/-- The body of one variant iteration after the combined-cap check
(`api.ts` lines 188-213): when the entry's first gloss is truthy and the
variant is eligible, push the compound into a tier, otherwise leave the
state unchanged. -/
def variantStep (anchor : String) (anchorMeaning : Option String)
    (gloss? : Option String) (s : ScanState) (v : Variant) : ScanState :=
  match gloss? with
  | some g =>
    if eligibleV anchor anchorMeaning g v then
      classify s ⟨v.written, v.pronounced, g⟩
        (isPreferredPriorities v.priorities)
    else s
  | none => s

/-- The inner variant loop (`api.ts` lines 186-214): before each variant
the combined cap of 10 is checked (`break`), then eligibility, then the
tier push.  `gloss?` is the entry's first gloss (constant across the
loop). -/
def processVariants (anchor : String) (anchorMeaning : Option String)
    (gloss? : Option String) : ScanState → List Variant → ScanState
  | s, [] => s
  | s, v :: vs =>
    if 10 ≤ s.pref.length + s.other.length then s
    else
      processVariants anchor anchorMeaning gloss?
        (variantStep anchor anchorMeaning gloss? s v) vs

/-- The outer entry loop (`api.ts` lines 183-216): before each entry the
preferred-tier cap of 5 is checked (`break`), then the entry's variants
are scanned. -/
def processEntries (anchor : String) (anchorMeaning : Option String) :
    ScanState → List Entry → ScanState
  | s, [] => s
  | s, e :: es =>
    if 5 ≤ s.pref.length then s
    else
      processEntries anchor anchorMeaning
        (processVariants anchor anchorMeaning (entryGloss e) s e.variants) es

/-- The full collection scan, started from two empty tiers. -/
def selectTiers (cands : List Entry) (anchor : String)
    (anchorMeaning : Option String) : ScanState :=
  processEntries anchor anchorMeaning ⟨[], []⟩ cands

/-- One insertion step of `new Map(combined.map(item => [item.word, item]))`:
when the word is already present its value is overwritten in place
(JavaScript `Map` keeps the original insertion position), otherwise the
pair is appended. -/
def mapInsert (l : List Compound) (c : Compound) : List Compound :=
  if l.any (fun x => x.word == c.word) then
    l.map (fun x => if x.word == c.word then c else x)
  else l ++ [c]

/-- `Array.from(new Map(combined.map(item => [item.word, item])).values())`
(`api.ts` line 218). -/
def dedupByWord (l : List Compound) : List Compound :=
  l.foldl mapInsert []

/-- `uniqueCompounds` (`api.ts` lines 217-218): dedup of preferred tier
followed by other tier. -/
def uniqueCompounds (cands : List Entry) (anchor : String)
    (anchorMeaning : Option String) : List Compound :=
  let st := selectTiers cands anchor anchorMeaning
  dedupByWord (st.pref ++ st.other)

/-- The selector's final output, `compoundWordsList.slice(0, 5)`
(`api.ts` line 235). -/
def select (cands : List Entry) (anchor : String)
    (anchorMeaning : Option String) : List Compound :=
  (uniqueCompounds cands anchor anchorMeaning).take 5

/-- The last collected compound carrying word `w`, if any (the value a
JavaScript `Map` ends up holding for key `w`). -/
def lastWith (w : String) (l : List Compound) : Option Compound :=
  l.foldl (fun acc c => if c.word == w then some c else acc) none

/-- One output segment of the transcription segmenter: a text span and,
for bracket-derived segments, its phonetic reading. -/
structure Segment where
  text : String
  reading : Option String
deriving DecidableEq, Repr

/-- Modelled from the spec: the segmenter that produces the `segments`
field consumed by the front-end renderer is absent from the snapshot's
`src/`; this emission rule follows §4.1: a plain run produces a reading-less
segment unless it is purely whitespace, in which case it is dropped
silently. -/
def emitPlain (run : List Char) : List Segment :=
  if run.any (fun c => !c.isWhitespace) then [⟨⟨run⟩, none⟩] else []

/-- Modelled from the spec (§4.1): a recognized bracket token produces one
segment whose text is the base and whose reading is the annotation with
residual bar characters stripped out, unless the base is empty after
trimming, in which case the whole token is dropped. -/
def emitBracket (base readingChars : List Char) : List Segment :=
  if base.any (fun c => !c.isWhitespace) then
    [⟨⟨base⟩, some ⟨readingChars.filter (fun c => c ≠ '|')⟩⟩]
  else []

/-- The scanner's mode: inside a plain run, inside the base of a bracket
token, or inside the annotation of a bracket token (with the accumulated
characters so far). -/
inductive ScanMode where
  | plain (run : List Char)
  | base (acc : List Char)
  | ann (base acc : List Char)
deriving DecidableEq, Repr

/-- Modelled from the spec: the single left-to-right scan of §4.1,
character by character.  An opening square bracket enters base mode (base
characters run until the first bar, so they may include brackets); the
first bar enters annotation mode (annotation characters run until the
closing square bracket, so they may include further bars, later stripped);
the closing square bracket emits the bracket segment.  A stray closing
bracket inside a plain run terminates that run and is itself skipped; an
input that ends in base or annotation mode is an unterminated bracket
token, dropped without signal. -/
def segGo : ScanMode → List Char → List Segment
  | .plain run, [] => emitPlain run
  | .plain run, c :: rest =>
    if c = '[' then emitPlain run ++ segGo (.base []) rest
    else if c = ']' then emitPlain run ++ segGo (.plain []) rest
    else segGo (.plain (run ++ [c])) rest
  | .base _, [] => []
  | .base acc, c :: rest =>
    if c = '|' then segGo (.ann acc []) rest
    else segGo (.base (acc ++ [c])) rest
  | .ann _ _, [] => []
  | .ann b acc, c :: rest =>
    if c = ']' then emitBracket b acc ++ segGo (.plain []) rest
    else segGo (.ann b (acc ++ [c])) rest

/-- Modelled from the spec: `segment(input: string | null) -> Segment[]`
(§4.1); null or empty input yields the empty sequence, any other input is
scanned once, starting in plain mode. -/
def segment : Option String → List Segment
  | none => []
  | some s => segGo (.plain []) s.data

/-- The characters obtained by concatenating the `text` fields of a
segment list, in order. -/
def concatTexts : List Segment → List Char
  | [] => []
  | s :: rest => s.text.data ++ concatTexts rest

/-- All compounds held by a scan state, preferred tier first. -/
def members (s : ScanState) : List Compound :=
  s.pref ++ s.other

/-- A compound that arises from some eligible variant with some truthy
gloss. -/
def FromEligible (anchor : String) (anchorMeaning : Option String)
    (c : Compound) : Prop :=
  ∃ g v, g ≠ "" ∧ eligibleV anchor anchorMeaning g v = true ∧
    c = ⟨v.written, v.pronounced, g⟩

/-- The characters a scan mode still owes to the output position: the
accumulated plain run, or the accumulated bracket base (and annotation)
characters. -/
def modePrefix : ScanMode → List Char
  | .plain run => run
  | .base acc => acc
  | .ann b acc => b ++ acc

/- ------------------------------------------------------------------ -/
/- Helper lemmas about the selector scan                               -/
/- ------------------------------------------------------------------ -/

theorem processVariants_stop (a : String) (am g? : Option String)
    (s : ScanState) (vs : List Variant)
    (h : 10 ≤ s.pref.length + s.other.length) :
    processVariants a am g? s vs = s := by
  cases vs with
  | nil => rfl
  | cons v vs => simp [processVariants, h]

theorem processEntries_stop (a : String) (am : Option String)
    (s : ScanState) (es : List Entry) (h : 5 ≤ s.pref.length) :
    processEntries a am s es = s := by
  cases es with
  | nil => rfl
  | cons e es => simp [processEntries, h]

theorem classify_bounds (s : ScanState) (c : Compound) (b : Bool)
    (h1 : s.pref.length ≤ 5) (h2 : s.other.length ≤ 5) :
    (classify s c b).pref.length ≤ 5 ∧ (classify s c b).other.length ≤ 5 := by
  unfold classify
  split
  · next h =>
    simp only [Bool.and_eq_true, decide_eq_true_eq] at h
    simp only [List.length_append, List.length_singleton]
    omega
  · split
    · next h =>
      simp only [List.length_append, List.length_singleton]
      omega
    · exact ⟨h1, h2⟩

theorem variantStep_bounds (a : String) (am g? : Option String)
    (s : ScanState) (v : Variant)
    (h1 : s.pref.length ≤ 5) (h2 : s.other.length ≤ 5) :
    (variantStep a am g? s v).pref.length ≤ 5 ∧
    (variantStep a am g? s v).other.length ≤ 5 := by
  unfold variantStep
  cases g? with
  | none => exact ⟨h1, h2⟩
  | some g =>
    cases he : eligibleV a am g v
    · simp only [he, Bool.false_eq_true, if_false]
      exact ⟨h1, h2⟩
    · simp only [he, if_true]
      exact classify_bounds s _ _ h1 h2

theorem processVariants_bounds (a : String) (am g? : Option String) :
    ∀ (vs : List Variant) (s : ScanState),
      s.pref.length ≤ 5 → s.other.length ≤ 5 →
      (processVariants a am g? s vs).pref.length ≤ 5 ∧
      (processVariants a am g? s vs).other.length ≤ 5
  | [], s, h1, h2 => ⟨h1, h2⟩
  | v :: vs, s, h1, h2 => by
    rw [processVariants]
    split
    · exact ⟨h1, h2⟩
    · have hb := variantStep_bounds a am g? s v h1 h2
      exact processVariants_bounds a am g? vs _ hb.1 hb.2

theorem processEntries_bounds (a : String) (am : Option String) :
    ∀ (es : List Entry) (s : ScanState),
      s.pref.length ≤ 5 → s.other.length ≤ 5 →
      (processEntries a am s es).pref.length ≤ 5 ∧
      (processEntries a am s es).other.length ≤ 5
  | [], s, h1, h2 => ⟨h1, h2⟩
  | e :: es, s, h1, h2 => by
    rw [processEntries]
    split
    · exact ⟨h1, h2⟩
    · have hb := processVariants_bounds a am (entryGloss e) e.variants s h1 h2
      exact processEntries_bounds a am es _ hb.1 hb.2

theorem selectTiers_bounds (cands : List Entry) (a : String)
    (am : Option String) :
    (selectTiers cands a am).pref.length ≤ 5 ∧
    (selectTiers cands a am).other.length ≤ 5 :=
  processEntries_bounds a am cands ⟨[], []⟩ (by simp) (by simp)

theorem entryGloss_ne_empty (e : Entry) (g : String)
    (h : entryGloss e = some g) : g ≠ "" := by
  unfold entryGloss at h
  split at h
  · exact absurd h (by simp)
  · split at h
    · exact absurd h (by simp)
    · split at h
      · exact absurd h (by simp)
      · next hne => cases h; exact hne

theorem mem_classify (s : ScanState) (c x : Compound) (b : Bool)
    (h : x ∈ members (classify s c b)) : x ∈ members s ∨ x = c := by
  unfold classify at h
  split at h
  · simp only [members, List.mem_append, List.mem_singleton] at h ⊢
    tauto
  · split at h
    · simp only [members, List.mem_append, List.mem_singleton] at h ⊢
      tauto
    · exact Or.inl h

theorem mem_variantStep (a : String) (am g? : Option String)
    (s : ScanState) (v : Variant) (x : Compound)
    (h : x ∈ members (variantStep a am g? s v)) :
    x ∈ members s ∨
      ∃ g, g? = some g ∧ eligibleV a am g v = true ∧
        x = ⟨v.written, v.pronounced, g⟩ := by
  unfold variantStep at h
  cases g? with
  | none => exact Or.inl h
  | some g =>
    by_cases he : eligibleV a am g v = true
    · simp only [he, if_true] at h
      rcases mem_classify _ _ _ _ h with hm | hm
      · exact Or.inl hm
      · exact Or.inr ⟨g, rfl, he, hm⟩
    · simp only [he, if_false] at h
      exact Or.inl h

theorem mem_processVariants (a : String) (am g? : Option String) :
    ∀ (vs : List Variant) (s : ScanState) (x : Compound),
      x ∈ members (processVariants a am g? s vs) →
      x ∈ members s ∨
        ∃ g v, g? = some g ∧ v ∈ vs ∧ eligibleV a am g v = true ∧
          x = ⟨v.written, v.pronounced, g⟩
  | [], s, x, h => Or.inl h
  | v :: vs, s, x, h => by
    rw [processVariants] at h
    split at h
    · exact Or.inl h
    · rcases mem_processVariants a am g? vs _ x h with hm | ⟨g, v', hg, hv', he, hx⟩
      · rcases mem_variantStep a am g? s v x hm with hm' | ⟨g, hg, he, hx⟩
        · exact Or.inl hm'
        · exact Or.inr ⟨g, v, hg, List.mem_cons_self v vs, he, hx⟩
      · exact Or.inr ⟨g, v', hg, List.mem_cons_of_mem v hv', he, hx⟩

theorem mem_processEntries (a : String) (am : Option String) :
    ∀ (es : List Entry) (s : ScanState) (x : Compound),
      x ∈ members (processEntries a am s es) →
      x ∈ members s ∨
        ∃ e g v, e ∈ es ∧ entryGloss e = some g ∧ v ∈ e.variants ∧
          eligibleV a am g v = true ∧ x = ⟨v.written, v.pronounced, g⟩
  | [], s, x, h => Or.inl h
  | e :: es, s, x, h => by
    rw [processEntries] at h
    split at h
    · exact Or.inl h
    · rcases mem_processEntries a am es _ x h with hm | ⟨e', g, v, he', hg, hv, hel, hx⟩
      · rcases mem_processVariants a am (entryGloss e) e.variants s x hm with
          hm' | ⟨g, v, hg, hv, hel, hx⟩
        · exact Or.inl hm'
        · exact Or.inr ⟨e, g, v, List.mem_cons_self e es, hg, hv, hel, hx⟩
      · exact Or.inr ⟨e', g, v, List.mem_cons_of_mem e he', hg, hv, hel, hx⟩

theorem mem_selectTiers (cands : List Entry) (a : String)
    (am : Option String) (x : Compound)
    (h : x ∈ members (selectTiers cands a am)) :
    FromEligible a am x := by
  rcases mem_processEntries a am cands ⟨[], []⟩ x h with hm | ⟨e, g, v, _, hg, _, hel, hx⟩
  · simp [members] at hm
  · exact ⟨g, v, entryGloss_ne_empty e g hg, hel, hx⟩

/- ------------------------------------------------------------------ -/
/- Helper lemmas about the word-keyed dedup                            -/
/- ------------------------------------------------------------------ -/

theorem words_replace (l : List Compound) (c : Compound) :
    (l.map (fun x => if x.word == c.word then c else x)).map
        (fun x => x.word) =
      l.map (fun x => x.word) := by
  rw [List.map_map]
  apply List.map_congr_left
  intro a _
  by_cases h : a.word = c.word <;> simp [h]

theorem words_mapInsert (l : List Compound) (c : Compound) :
    (mapInsert l c).map (fun x => x.word) =
      if l.any (fun x => x.word == c.word) then l.map (fun x => x.word)
      else l.map (fun x => x.word) ++ [c.word] := by
  unfold mapInsert
  split
  · exact words_replace l c
  · rw [List.map_append]; rfl

theorem nodup_words_mapInsert (l : List Compound) (c : Compound)
    (h : (l.map (fun x => x.word)).Nodup) :
    ((mapInsert l c).map (fun x => x.word)).Nodup := by
  rw [words_mapInsert]
  split
  · exact h
  · next hna =>
    simp only [List.any_eq_true, not_exists, not_and, Bool.not_eq_true] at hna
    rw [List.nodup_append]
    refine ⟨h, List.nodup_singleton _, fun w hw hw' => ?_⟩
    rcases List.mem_map.mp hw with ⟨x, hx, rfl⟩
    have hcw := List.mem_singleton.mp hw'
    have hfalse := hna x hx
    rw [hcw] at hfalse
    simp at hfalse

theorem mem_mapInsert (l : List Compound) (c x : Compound)
    (h : x ∈ mapInsert l c) : x ∈ l ∨ x = c := by
  unfold mapInsert at h
  split at h
  · rcases List.mem_map.mp h with ⟨y, hy, hyx⟩
    by_cases hw : y.word = c.word
    · simp only [hw, beq_self_eq_true, if_true] at hyx
      exact Or.inr hyx.symm
    · simp only [beq_iff_eq, hw, if_false] at hyx
      exact Or.inl (hyx ▸ hy)
  · rcases List.mem_append.mp h with h' | h'
    · exact Or.inl h'
    · exact Or.inr (List.mem_singleton.mp h')

theorem filter_replace (w : String) :
    ∀ (l : List Compound) (c : Compound),
      (l.map (fun x => x.word)).Nodup →
      l.any (fun x => x.word == c.word) = true →
      (l.map (fun x => if x.word == c.word then c else x)).filter
          (fun x => x.word == w) =
        if c.word == w then [c] else l.filter (fun x => x.word == w)
  | [], c, _, ha => by simp at ha
  | y :: t, c, hnd, ha => by
    rw [List.map_cons, List.nodup_cons] at hnd
    by_cases hy : y.word = c.word
    · have ht : ∀ x ∈ t, x.word ≠ c.word := by
        intro x hx hxc
        exact hnd.1 (List.mem_map.mpr ⟨x, hx, by rw [hxc, hy]⟩)
      have htid : t.map (fun x => if x.word == c.word then c else x) = t := by
        calc t.map (fun x => if x.word == c.word then c else x)
            = t.map id := List.map_congr_left (fun x hx => by
              simp [ht x hx])
          _ = t := List.map_id t
      have hhead : (if y.word == c.word then c else y) = c := by simp [hy]
      rw [List.map_cons, htid, hhead, List.filter_cons, List.filter_cons]
      by_cases hcw : c.word = w
      · have htw : t.filter (fun x => x.word == w) = [] := by
          rw [List.filter_eq_nil_iff]
          intro x hx
          simp only [beq_iff_eq]
          rw [← hcw]
          exact ht x hx
        simp [hcw, htw]
      · have hyw : ¬y.word = w := fun h => hcw (hy ▸ h)
        simp [hcw, hyw]
    · have hfy : (if y.word == c.word then c else y) = y := by simp [hy]
      have ha' : t.any (fun x => x.word == c.word) = true := by
        simp only [List.any_cons, Bool.or_eq_true, beq_iff_eq] at ha
        rcases ha with h' | h'
        · exact absurd h' hy
        · exact h'
      have ih := filter_replace w t c hnd.2 ha'
      rw [List.map_cons, hfy, List.filter_cons, List.filter_cons, ih]
      by_cases hyw : y.word = w
      · by_cases hcw : c.word = w
        · exact absurd (hcw ▸ hyw : y.word = c.word) hy
        · simp [hyw, hcw]
      · by_cases hcw : c.word = w <;> simp [hyw, hcw]

theorem filter_mapInsert (w : String) (l : List Compound) (c : Compound)
    (hnd : (l.map (fun x => x.word)).Nodup) :
    (mapInsert l c).filter (fun x => x.word == w) =
      if c.word == w then [c] else l.filter (fun x => x.word == w) := by
  unfold mapInsert
  split
  · next ha => exact filter_replace w l c hnd ha
  · next ha =>
    simp only [Bool.not_eq_true, List.any_eq_false] at ha
    rw [List.filter_append]
    by_cases hcw : c.word = w
    · have hl : l.filter (fun x => x.word == w) = [] := by
        rw [List.filter_eq_nil_iff]
        intro x hx
        simp only [beq_iff_eq]
        intro hxw
        have := ha x hx
        simp [hxw, hcw] at this
      simp [hl, hcw]
    · simp [hcw]

theorem filter_word_head (w : String) :
    ∀ (l : List Compound), (l.map (fun x => x.word)).Nodup →
      l.filter (fun x => x.word == w) =
        ((l.filter (fun x => x.word == w)).head?).toList
  | [], _ => rfl
  | y :: t, hnd => by
    rw [List.map_cons, List.nodup_cons] at hnd
    by_cases hyw : y.word = w
    · have htw : t.filter (fun x => x.word == w) = [] := by
        rw [List.filter_eq_nil_iff]
        intro x hx
        simp only [beq_iff_eq]
        intro hxw
        exact hnd.1 (List.mem_map.mpr ⟨x, hx, by rw [hxw, hyw]⟩)
      simp [hyw, htw]
    · simp only [List.filter_cons, beq_iff_eq, hyw, if_false, decide_eq_true_eq]
      exact filter_word_head w t hnd.2

theorem nodup_words_foldl (l : List Compound) :
    ∀ (acc : List Compound), (acc.map (fun x => x.word)).Nodup →
      ((l.foldl mapInsert acc).map (fun x => x.word)).Nodup := by
  induction l with
  | nil => exact fun acc h => h
  | cons c t ih =>
    intro acc h
    exact ih (mapInsert acc c) (nodup_words_mapInsert acc c h)

theorem mem_foldl_mapInsert (l : List Compound) :
    ∀ (acc : List Compound) (x : Compound),
      x ∈ l.foldl mapInsert acc → x ∈ acc ∨ x ∈ l := by
  induction l with
  | nil => exact fun acc x h => Or.inl h
  | cons c t ih =>
    intro acc x h
    rcases ih (mapInsert acc c) x h with h' | h'
    · rcases mem_mapInsert acc c x h' with h'' | h''
      · exact Or.inl h''
      · exact Or.inr (h'' ▸ List.mem_cons_self c t)
    · exact Or.inr (List.mem_cons_of_mem c h')

theorem mem_dedupByWord (l : List Compound) (x : Compound)
    (h : x ∈ dedupByWord l) : x ∈ l := by
  rcases mem_foldl_mapInsert l [] x h with h' | h'
  · simp at h'
  · exact h'

theorem nodup_words_dedupByWord (l : List Compound) :
    ((dedupByWord l).map (fun x => x.word)).Nodup :=
  nodup_words_foldl l [] (by simp)

theorem filter_foldl_mapInsert (w : String) :
    ∀ (l acc : List Compound), (acc.map (fun x => x.word)).Nodup →
      (l.foldl mapInsert acc).filter (fun x => x.word == w) =
        (l.foldl (fun r c => if c.word == w then some c else r)
          ((acc.filter (fun x => x.word == w)).head?)).toList
  | [], acc, hnd => by
    simpa using filter_word_head w acc hnd
  | c :: t, acc, hnd => by
    rw [List.foldl_cons, List.foldl_cons]
    have hstep : ((mapInsert acc c).filter (fun x => x.word == w)).head? =
        if c.word == w then some c
        else (acc.filter (fun x => x.word == w)).head? := by
      rw [filter_mapInsert w acc c hnd]
      by_cases hcw : c.word = w <;> simp [hcw]
    rw [filter_foldl_mapInsert w t (mapInsert acc c)
      (nodup_words_mapInsert acc c hnd), hstep]

theorem filter_dedupByWord (w : String) (l : List Compound) :
    (dedupByWord l).filter (fun x => x.word == w) = (lastWith w l).toList := by
  unfold dedupByWord lastWith
  rw [filter_foldl_mapInsert w l [] (by simp)]
  rfl

/- ------------------------------------------------------------------ -/
/- Helper lemmas about the segmenter                                   -/
/- ------------------------------------------------------------------ -/

theorem concatTexts_append (a b : List Segment) :
    concatTexts (a ++ b) = concatTexts a ++ concatTexts b := by
  induction a with
  | nil => rfl
  | cons s t ih => simp [concatTexts, ih]

theorem concatTexts_emitPlain (run : List Char) :
    List.Sublist (concatTexts (emitPlain run)) run := by
  unfold emitPlain
  split
  · simp [concatTexts]
  · exact List.nil_sublist run

theorem concatTexts_emitBracket (b a : List Char) :
    List.Sublist (concatTexts (emitBracket b a)) b := by
  unfold emitBracket
  split
  · simp [concatTexts]
  · exact List.nil_sublist b

theorem segGo_sublist :
    ∀ (l : List Char) (m : ScanMode),
      List.Sublist (concatTexts (segGo m l)) (modePrefix m ++ l) := by
  intro l
  induction l with
  | nil =>
    intro m
    cases m with
    | plain run =>
      simpa [segGo, modePrefix] using concatTexts_emitPlain run
    | base acc => simp [segGo, concatTexts]
    | ann b acc => simp [segGo, concatTexts]
  | cons c rest ih =>
    intro m
    cases m with
    | plain run =>
      by_cases hc : c = '['
      · subst hc
        rw [show segGo (.plain run) ('[' :: rest) =
            emitPlain run ++ segGo (.base []) rest from by simp [segGo],
          concatTexts_append]
        have h1 := concatTexts_emitPlain run
        have h2 := (ih (.base [])).trans (List.sublist_cons_self '[' rest)
        simpa [modePrefix] using h1.append h2
      · by_cases hc' : c = ']'
        · subst hc'
          rw [show segGo (.plain run) (']' :: rest) =
              emitPlain run ++ segGo (.plain []) rest from by simp [segGo, hc],
            concatTexts_append]
          have h1 := concatTexts_emitPlain run
          have h2 := (ih (.plain [])).trans (List.sublist_cons_self ']' rest)
          simpa [modePrefix] using h1.append h2
        · rw [show segGo (.plain run) (c :: rest) =
              segGo (.plain (run ++ [c])) rest from by simp [segGo, hc, hc']]
          have h2 := ih (.plain (run ++ [c]))
          simpa [modePrefix] using h2
    | base acc =>
      by_cases hc : c = '|'
      · subst hc
        rw [show segGo (.base acc) ('|' :: rest) =
            segGo (.ann acc []) rest from by simp [segGo]]
        have h2 := ih (.ann acc [])
        simp only [modePrefix, List.append_nil] at h2
        exact h2.trans (((List.sublist_cons_self '|' rest).append_left acc))
      · rw [show segGo (.base acc) (c :: rest) =
            segGo (.base (acc ++ [c])) rest from by simp [segGo, hc]]
        have h2 := ih (.base (acc ++ [c]))
        simpa [modePrefix] using h2
    | ann b acc =>
      by_cases hc : c = ']'
      · subst hc
        rw [show segGo (.ann b acc) (']' :: rest) =
            emitBracket b acc ++ segGo (.plain []) rest from by simp [segGo],
          concatTexts_append]
        have h1 := concatTexts_emitBracket b acc
        have h2 := (ih (.plain [])).trans (List.sublist_cons_self ']' rest)
        have h3 : acc ++ ']' :: rest = (acc ++ [']']) ++ rest := by simp
        have h4 : List.Sublist (concatTexts (segGo (.plain []) rest))
            (acc ++ ']' :: rest) := by
          rw [h3]
          have h5 : List.Sublist (concatTexts (segGo (.plain []) rest))
              (']' :: rest) := by simpa using h2
          have h6 := (List.sublist_append_right acc (']' :: rest))
          exact (h5.trans h6).trans (by simp)
        simpa [modePrefix] using h1.append h4
      · rw [show segGo (.ann b acc) (c :: rest) =
            segGo (.ann b (acc ++ [c])) rest from by simp [segGo, hc]]
        have h2 := ih (.ann b (acc ++ [c]))
        simpa [modePrefix] using h2

theorem reading_emitPlain (run : List Char) (seg : Segment)
    (h : seg ∈ emitPlain run) : seg.reading = none := by
  unfold emitPlain at h
  split at h
  · rcases List.mem_singleton.mp h with rfl
    rfl
  · simp at h

theorem reading_emitBracket (b a : List Char) (seg : Segment) (r : String)
    (h : seg ∈ emitBracket b a) (hr : seg.reading = some r) :
    '|' ∉ r.data := by
  unfold emitBracket at h
  split at h
  · rcases List.mem_singleton.mp h with rfl
    simp only [Option.some.injEq] at hr
    cases hr
    intro hmem
    simp at hmem
  · simp at h

theorem no_bar_segGo :
    ∀ (l : List Char) (m : ScanMode) (seg : Segment),
      seg ∈ segGo m l → ∀ r, seg.reading = some r → '|' ∉ r.data := by
  intro l
  induction l with
  | nil =>
    intro m seg h r hr
    cases m with
    | plain run =>
      rw [show segGo (.plain run) [] = emitPlain run from rfl] at h
      rw [reading_emitPlain run seg h] at hr
      cases hr
    | base acc => simp [segGo] at h
    | ann b acc => simp [segGo] at h
  | cons c rest ih =>
    intro m seg h r hr
    cases m with
    | plain run =>
      by_cases hc : c = '['
      · subst hc
        rw [show segGo (.plain run) ('[' :: rest) =
            emitPlain run ++ segGo (.base []) rest from by simp [segGo]] at h
        rcases List.mem_append.mp h with h' | h'
        · rw [reading_emitPlain run seg h'] at hr
          cases hr
        · exact ih _ seg h' r hr
      · by_cases hc' : c = ']'
        · subst hc'
          rw [show segGo (.plain run) (']' :: rest) =
              emitPlain run ++ segGo (.plain []) rest from by
                simp [segGo, hc]] at h
          rcases List.mem_append.mp h with h' | h'
          · rw [reading_emitPlain run seg h'] at hr
            cases hr
          · exact ih _ seg h' r hr
        · rw [show segGo (.plain run) (c :: rest) =
              segGo (.plain (run ++ [c])) rest from by simp [segGo, hc, hc']] at h
          exact ih _ seg h r hr
    | base acc =>
      by_cases hc : c = '|'
      · subst hc
        rw [show segGo (.base acc) ('|' :: rest) =
            segGo (.ann acc []) rest from by simp [segGo]] at h
        exact ih _ seg h r hr
      · rw [show segGo (.base acc) (c :: rest) =
            segGo (.base (acc ++ [c])) rest from by simp [segGo, hc]] at h
        exact ih _ seg h r hr
    | ann b acc =>
      by_cases hc : c = ']'
      · subst hc
        rw [show segGo (.ann b acc) (']' :: rest) =
            emitBracket b acc ++ segGo (.plain []) rest from by
              simp [segGo]] at h
        rcases List.mem_append.mp h with h' | h'
        · exact reading_emitBracket b acc seg r h' hr
        · exact ih _ seg h' r hr
      · rw [show segGo (.ann b acc) (c :: rest) =
            segGo (.ann b (acc ++ [c])) rest from by simp [segGo, hc]] at h
        exact ih _ seg h r hr

theorem segGo_base_run :
    ∀ (b : List Char), '|' ∉ b → ∀ (acc t : List Char),
      segGo (.base acc) (b ++ '|' :: t) = segGo (.ann (acc ++ b) []) t
  | [], _, acc, t => by simp [segGo]
  | c :: b', hb, acc, t => by
    have hc : c ≠ '|' := fun h => hb (h ▸ List.mem_cons_self c b')
    have hb' : '|' ∉ b' := fun h => hb (List.mem_cons_of_mem c h)
    rw [List.cons_append,
      show segGo (.base acc) (c :: (b' ++ '|' :: t)) =
        segGo (.base (acc ++ [c])) (b' ++ '|' :: t) from by simp [segGo, hc],
      segGo_base_run b' hb' (acc ++ [c]) t]
    simp

theorem segGo_ann_run :
    ∀ (a : List Char), ']' ∉ a → ∀ (b acc t : List Char),
      segGo (.ann b acc) (a ++ ']' :: t) =
        emitBracket b (acc ++ a) ++ segGo (.plain []) t
  | [], _, b, acc, t => by simp [segGo]
  | c :: a', ha, b, acc, t => by
    have hc : c ≠ ']' := fun h => ha (h ▸ List.mem_cons_self c a')
    have ha' : ']' ∉ a' := fun h => ha (List.mem_cons_of_mem c h)
    rw [List.cons_append,
      show segGo (.ann b acc) (c :: (a' ++ ']' :: t)) =
        segGo (.ann b (acc ++ [c])) (a' ++ ']' :: t) from by simp [segGo, hc],
      segGo_ann_run a' ha' b (acc ++ [c]) t]
    simp

theorem segGo_bracket (b a r : List Char)
    (hb : '|' ∉ b) (ha : ']' ∉ a) :
    segGo (.plain []) ('[' :: (b ++ '|' :: (a ++ ']' :: r))) =
      emitBracket b a ++ segGo (.plain []) r := by
  rw [show segGo (.plain []) ('[' :: (b ++ '|' :: (a ++ ']' :: r))) =
      segGo (.base []) (b ++ '|' :: (a ++ ']' :: r)) from by
        simp [segGo, emitPlain],
    segGo_base_run b hb [] _, segGo_ann_run a ha ([] ++ b) [] r]
  simp

/- ------------------------------------------------------------------ -/
/- Helper lemmas: ineligible variants and entries are no-ops           -/
/- ------------------------------------------------------------------ -/

theorem eligibleV_empty_priorities (a : String) (am : Option String)
    (g : String) (v : Variant) (h : v.priorities = []) :
    eligibleV a am g v = false := by
  unfold eligibleV
  simp [h]

theorem variantStep_inel (a : String) (am : Option String)
    (g? : Option String) (s : ScanState) (v : Variant)
    (h : ∀ g, g? = some g → eligibleV a am g v = false) :
    variantStep a am g? s v = s := by
  unfold variantStep
  cases g? with
  | none => rfl
  | some g => simp [h g rfl]

theorem processVariants_all_inel (a : String) (am g? : Option String) :
    ∀ (vs : List Variant) (s : ScanState),
      (∀ v ∈ vs, ∀ g, g? = some g → eligibleV a am g v = false) →
      processVariants a am g? s vs = s
  | [], s, _ => rfl
  | v :: vs, s, h => by
    rw [processVariants]
    split
    · rfl
    · rw [variantStep_inel a am g? s v (h v (List.mem_cons_self v vs)),
        processVariants_all_inel a am g? vs s
          (fun v' hv' => h v' (List.mem_cons_of_mem v hv'))]

theorem processVariants_filter (a : String) (am g? : Option String) :
    ∀ (vs : List Variant) (s : ScanState),
      processVariants a am g? s
          (vs.filter (fun v => !v.priorities.isEmpty)) =
        processVariants a am g? s vs := by
  intro vs
  induction vs with
  | nil => intro s; rfl
  | cons v vs ih =>
    intro s
    by_cases hp : v.priorities = []
    · have hdrop : (v :: vs).filter (fun v => !v.priorities.isEmpty) =
          vs.filter (fun v => !v.priorities.isEmpty) := by
        simp [List.filter_cons, hp]
      rw [hdrop]
      rw [processVariants]
      split
      · next hcap =>
        exact processVariants_stop a am g? s _ hcap
      · rw [variantStep_inel a am g? s v
          (fun g _ => eligibleV_empty_priorities a am g v hp)]
        exact ih s
    · have hkeep : (v :: vs).filter (fun v => !v.priorities.isEmpty) =
          v :: vs.filter (fun v => !v.priorities.isEmpty) := by
        simp [List.filter_cons, hp]
      rw [hkeep, processVariants, processVariants]
      split
      · rfl
      · exact ih _

theorem processVariants_none (a : String) (am : Option String) :
    ∀ (vs : List Variant) (s : ScanState),
      processVariants a am none s vs = s
  | [], s => rfl
  | v :: vs, s => by
    rw [processVariants]
    split
    · rfl
    · rw [show variantStep a am none s v = s from rfl]
      exact processVariants_none a am vs s

theorem processEntries_skip (a : String) (am : Option String)
    (e : Entry) (he : entryGloss e = none) :
    ∀ (s : ScanState) (ys : List Entry),
      processEntries a am s (e :: ys) = processEntries a am s ys := by
  intro s ys
  rw [processEntries]
  split
  · next h => exact (processEntries_stop a am s ys h).symm
  · rw [he, processVariants_none a am e.variants s]

theorem processEntries_middle (a : String) (am : Option String)
    (e : Entry) (he : entryGloss e = none) :
    ∀ (xs : List Entry) (s : ScanState) (ys : List Entry),
      processEntries a am s (xs ++ e :: ys) =
        processEntries a am s (xs ++ ys)
  | [], s, ys => processEntries_skip a am e he s ys
  | x :: xs, s, ys => by
    rw [List.cons_append, List.cons_append, processEntries, processEntries]
    split
    · rfl
    · exact processEntries_middle a am e he xs _ ys

theorem processEntries_all_inel (a : String) (am : Option String) :
    ∀ (es : List Entry) (s : ScanState),
      (∀ e ∈ es, ∀ v ∈ e.variants, ∀ g, entryGloss e = some g →
        eligibleV a am g v = false) →
      processEntries a am s es = s
  | [], s, _ => rfl
  | e :: es, s, h => by
    rw [processEntries]
    split
    · rfl
    · rw [processVariants_all_inel a am (entryGloss e) e.variants s
        (fun v hv g hg => h e (List.mem_cons_self e es) v hv g hg),
        processEntries_all_inel a am es s
          (fun e' he' => h e' (List.mem_cons_of_mem e he'))]

/- ------------------------------------------------------------------ -/
/- Helper lemmas: eligibility extraction and lower-casing              -/
/- ------------------------------------------------------------------ -/

theorem eligibleV_facts (a : String) (am : Option String) (g : String)
    (v : Variant) (h : eligibleV a am g v = true) :
    v.written ≠ a ∧ ∀ m, am = some m → m ≠ "" → toLowerStr g ≠ m := by
  unfold eligibleV at h
  cases am with
  | none =>
    simp only [Bool.and_eq_true, bne_iff_ne] at h
    exact ⟨h.1.1.1.1.2, fun m hm => by cases hm⟩
  | some m' =>
    simp only [Bool.and_eq_true, bne_iff_ne, Bool.not_eq_true',
      Bool.and_eq_false_iff, decide_eq_false_iff_not, not_not,
      beq_eq_false_iff_ne] at h
    refine ⟨h.1.1.1.1.2, fun m hm hne => ?_⟩
    cases hm
    rcases h.1.2 with h' | h'
    · exact absurd h' hne
    · exact h'

theorem toLowerStr_eq_empty (s : String) (h : toLowerStr s = "") :
    s = "" := by
  unfold toLowerStr at h
  have hd := congrArg String.data h
  simp only [List.map_eq_nil_iff] at hd
  cases s with
  | mk data => simp_all

theorem processEntries_filter (a : String) (am : Option String) :
    ∀ (es : List Entry) (s : ScanState),
      processEntries a am s (es.map (fun e =>
        ⟨e.variants.filter (fun v => !v.priorities.isEmpty), e.meanings⟩)) =
      processEntries a am s es
  | [], s => rfl
  | e :: es, s => by
    rw [List.map_cons, processEntries, processEntries]
    split
    · rfl
    · have hg : entryGloss
          ⟨e.variants.filter (fun v => !v.priorities.isEmpty), e.meanings⟩ =
          entryGloss e := by
        cases e
        rfl
      rw [hg]
      show processEntries a am
          (processVariants a am (entryGloss e)
            s (e.variants.filter (fun v => !v.priorities.isEmpty))) _ = _
      rw [processVariants_filter a am (entryGloss e) e.variants s]
      exact processEntries_filter a am es _

/- ------------------------------------------------------------------ -/
/- Claims                                                              -/
/- ------------------------------------------------------------------ -/

/-- C1, counterexample: two entries produce the same written form `xa`,
the first in the preferred tier (tag `news1`, reading `A`, meaning `g1`),
the second in the other tier (tag `zz`, reading `B`, meaning `g2`).  The
claim says the deduplicated output keeps the earlier (preferred) variant's
reading and meaning and never the later one; the code's JavaScript `Map`
overwrites the value, so the output is exactly the later variant's
reading/meaning and the earlier one is absent. -/
theorem C1_counterexample :
    (⟨"xa", "A", "g1"⟩ : Compound) ∉
      select [⟨[⟨"xa", "A", ["news1"]⟩], [⟨["g1"]⟩]⟩,
              ⟨[⟨"xa", "B", ["zz"]⟩], [⟨["g2"]⟩]⟩] "x" none ∧
    select [⟨[⟨"xa", "A", ["news1"]⟩], [⟨["g1"]⟩]⟩,
            ⟨[⟨"xa", "B", ["zz"]⟩], [⟨["g2"]⟩]⟩] "x" none =
      [⟨"xa", "B", "g2"⟩] := by
  decide

/-- C1, amended: in the final assembly the dedup keeps one compound per
written form at the position of its first occurrence, but with the value
of the *last* collected compound carrying that word (JavaScript `Map`
insertion overwrites the stored value while keeping the original
position), so for two collected compounds with the same word the output
carries the later-encountered reading and meaning, never the earlier
one. -/
theorem C1_dedup_keeps_last (cands : List Entry) (a : String)
    (am : Option String) (w : String) :
    (uniqueCompounds cands a am).filter (fun c => c.word == w) =
      (lastWith w ((selectTiers cands a am).pref ++
        (selectTiers cands a am).other)).toList := by
  unfold uniqueCompounds
  exact filter_dedupByWord w _

/-- C2: for every candidate list, anchor character and anchor meaning,
the selector's output has length at most 5, has pairwise distinct words,
never contains the anchor character alone, and (when an anchor meaning is
given — per the data model it is already lower-cased, expressed by the
hypothesis `toLowerStr m = m`) never contains a compound whose meaning
equals the anchor meaning case-insensitively. -/
theorem C2_output_invariants (cands : List Entry) (a : String)
    (am : Option String) :
    (select cands a am).length ≤ 5 ∧
    ((select cands a am).map (fun c => c.word)).Nodup ∧
    (∀ c ∈ select cands a am, c.word ≠ a) ∧
    (∀ m, am = some m → toLowerStr m = m →
      ∀ c ∈ select cands a am, toLowerStr c.meaning ≠ toLowerStr m) := by
  have hmem : ∀ c ∈ select cands a am, FromEligible a am c := by
    intro c hc
    have h1 : c ∈ uniqueCompounds cands a am := List.mem_of_mem_take hc
    have h2 : c ∈ members (selectTiers cands a am) :=
      mem_dedupByWord _ c h1
    exact mem_selectTiers cands a am c h2
  refine ⟨List.length_take_le 5 _, ?_, ?_, ?_⟩
  · have hnd := nodup_words_dedupByWord
      ((selectTiers cands a am).pref ++ (selectTiers cands a am).other)
    have hsub : List.Sublist
        ((select cands a am).map (fun c => c.word))
        ((uniqueCompounds cands a am).map (fun c => c.word)) := by
      unfold select
      exact (List.take_sublist 5 _).map _
    exact hnd.sublist hsub
  · intro c hc
    obtain ⟨g, v, _, hel, rfl⟩ := hmem c hc
    exact (eligibleV_facts a am g v hel).1
  · intro m hm hlow c hc
    obtain ⟨g, v, hg, hel, rfl⟩ := hmem c hc
    show toLowerStr g ≠ toLowerStr m
    by_cases hme : m = ""
    · subst hme
      intro heq
      have h0 : toLowerStr "" = "" := rfl
      rw [h0] at heq
      exact hg (toLowerStr_eq_empty g heq)
    · intro heq
      exact (eligibleV_facts a am g v hel).2 m hm hme (by rw [heq, hlow])

/-- C2, witness: a concrete run with anchor meaning `car` (already
lower-case): the candidate glossed `Car` is excluded case-insensitively,
the candidate glossed `dog` survives, and the meaning clause of the
theorem applies to it. -/
theorem C2_output_invariants_witness :
    toLowerStr (Compound.meaning ⟨"xb", "B", "dog"⟩) ≠ toLowerStr "car" :=
  (C2_output_invariants [⟨[⟨"xa", "A", ["news1"]⟩], [⟨["Car"]⟩]⟩,
      ⟨[⟨"xb", "B", ["news1"]⟩], [⟨["dog"]⟩]⟩] "x" (some "car")).2.2.2
    "car" rfl (by decide) ⟨"xb", "B", "dog"⟩ (by decide)

/-- C3, counterexample: one entry carries six eligible variants with
distinct words, all tagged `zz` only (other tier).  The combined count
never reaches 10, so by the claim up to `10 − 0 = 10` other-tier entries
may be collected and all six should be; the code's `else if
(otherPriorityCompounds.length < 5)` caps the other tier at 5, and the
sixth variant is dropped. -/
theorem C3_counterexample :
    selectTiers [⟨[⟨"xa", "r", ["zz"]⟩, ⟨"xb", "r", ["zz"]⟩,
        ⟨"xc", "r", ["zz"]⟩, ⟨"xd", "r", ["zz"]⟩, ⟨"xe", "r", ["zz"]⟩,
        ⟨"xf", "r", ["zz"]⟩], [⟨["g"]⟩]⟩] "x" none =
      ⟨[], [⟨"xa", "r", "g"⟩, ⟨"xb", "r", "g"⟩, ⟨"xc", "r", "g"⟩,
        ⟨"xd", "r", "g"⟩, ⟨"xe", "r", "g"⟩]⟩ := by
  decide

/-- C3, amended: the caps are applied during the scan: the preferred tier
stops growing at 5, variant scanning stops entirely once preferred+other
reaches 10, and the other tier is additionally capped at 5 entries of its
own (not merely bounded by the combined cap), so both tiers always hold
at most 5 entries. -/
theorem C3_scan_caps (a : String) (am : Option String) :
    (∀ (g? : Option String) (s : ScanState) (vs : List Variant),
      10 ≤ s.pref.length + s.other.length →
      processVariants a am g? s vs = s) ∧
    (∀ (s : ScanState) (c : Compound) (b : Bool), 5 ≤ s.pref.length →
      (classify s c b).pref = s.pref) ∧
    (∀ (s : ScanState) (c : Compound) (b : Bool), 5 ≤ s.other.length →
      (classify s c b).other = s.other) ∧
    (∀ cands : List Entry,
      (selectTiers cands a am).pref.length ≤ 5 ∧
      (selectTiers cands a am).other.length ≤ 5) := by
  refine ⟨fun g? s vs h => processVariants_stop a am g? s vs h,
    ?_, ?_, fun cands => selectTiers_bounds cands a am⟩
  · intro s c b h
    unfold classify
    split
    · next hc =>
      simp only [Bool.and_eq_true, decide_eq_true_eq] at hc
      omega
    · split
      · rfl
      · rfl
  · intro s c b h
    unfold classify
    split
    · rfl
    · split
      · next hc => omega
      · rfl

/-- C3, witness: the conjuncts applied at concrete inputs: a full state
(5+5) stops the variant scan unchanged, and a full preferred tier rejects
a preferred push. -/
theorem C3_scan_caps_witness :
    processVariants "x" none (some "g")
        ⟨[⟨"p1", "r", "g"⟩, ⟨"p2", "r", "g"⟩, ⟨"p3", "r", "g"⟩,
          ⟨"p4", "r", "g"⟩, ⟨"p5", "r", "g"⟩],
         [⟨"o1", "r", "g"⟩, ⟨"o2", "r", "g"⟩, ⟨"o3", "r", "g"⟩,
          ⟨"o4", "r", "g"⟩, ⟨"o5", "r", "g"⟩]⟩
        [⟨"xg", "r", ["news1"]⟩] =
      ⟨[⟨"p1", "r", "g"⟩, ⟨"p2", "r", "g"⟩, ⟨"p3", "r", "g"⟩,
        ⟨"p4", "r", "g"⟩, ⟨"p5", "r", "g"⟩],
       [⟨"o1", "r", "g"⟩, ⟨"o2", "r", "g"⟩, ⟨"o3", "r", "g"⟩,
        ⟨"o4", "r", "g"⟩, ⟨"o5", "r", "g"⟩]⟩ :=
  (C3_scan_caps "x" none).1 (some "g") _ _ (by decide)

/-- C4, counterexample: one entry carries six eligible variants with
distinct words, all tagged `news1` (a preferred pattern).  The first five
fill the preferred tier; the sixth is preferred-tagged but overflows into
the other tier, so the other tier does contain a preferred-tagged
variant, refuting "never a preferred-tagged variant". -/
theorem C4_counterexample :
    isPreferredPriorities ["news1"] = true ∧
    (selectTiers [⟨[⟨"xa", "r", ["news1"]⟩, ⟨"xb", "r", ["news1"]⟩,
        ⟨"xc", "r", ["news1"]⟩, ⟨"xd", "r", ["news1"]⟩,
        ⟨"xe", "r", ["news1"]⟩, ⟨"xf", "r", ["news1"]⟩],
        [⟨["g"]⟩]⟩] "x" none).other = [⟨"xf", "r", "g"⟩] := by
  decide

/-- C4, amended: an eligible variant is classified by its priority tags
only while capacity allows: below the caps a preferred-tagged variant
goes to the preferred tier and a non-preferred one to the other tier, but
once the preferred tier holds 5 entries a preferred-tagged variant
overflows into the other tier, so the other tier may contain
preferred-tagged variants. -/
theorem C4_tier_classification (a : String) (am : Option String) :
    (∀ (g : String) (v : Variant) (s : ScanState) (vs : List Variant),
      s.pref.length + s.other.length < 10 →
      eligibleV a am g v = true →
      processVariants a am (some g) s (v :: vs) =
        processVariants a am (some g)
          (classify s ⟨v.written, v.pronounced, g⟩
            (isPreferredPriorities v.priorities)) vs) ∧
    (∀ (s : ScanState) (c : Compound), s.pref.length < 5 →
      classify s c true = { s with pref := s.pref ++ [c] }) ∧
    (∀ (s : ScanState) (c : Compound), s.other.length < 5 →
      classify s c false = { s with other := s.other ++ [c] }) ∧
    (∀ (s : ScanState) (c : Compound), 5 ≤ s.pref.length →
      s.other.length < 5 →
      classify s c true = { s with other := s.other ++ [c] }) := by
  refine ⟨?_, ?_, ?_, ?_⟩
  · intro g v s vs hcap hel
    rw [processVariants]
    rw [if_neg (by omega)]
    show processVariants a am (some g)
        (if eligibleV a am g v = true then
          classify s ⟨v.written, v.pronounced, g⟩
            (isPreferredPriorities v.priorities)
        else s) vs = _
    rw [if_pos hel]
  · intro s c hp
    unfold classify
    rw [if_pos (by simp [hp])]
  · intro s c ho
    unfold classify
    rw [if_neg (by simp), if_pos ho]
  · intro s c hp ho
    unfold classify
    rw [if_neg (by simp; omega), if_pos ho]

/-- C4, witness: the overflow conjunct applied at a concrete full
preferred tier, and the scan-step conjunct at a concrete eligible
preferred variant. -/
theorem C4_tier_classification_witness :
    classify ⟨[⟨"p1", "r", "g"⟩, ⟨"p2", "r", "g"⟩, ⟨"p3", "r", "g"⟩,
        ⟨"p4", "r", "g"⟩, ⟨"p5", "r", "g"⟩], []⟩ ⟨"xf", "r", "g"⟩ true =
      ⟨[⟨"p1", "r", "g"⟩, ⟨"p2", "r", "g"⟩, ⟨"p3", "r", "g"⟩,
        ⟨"p4", "r", "g"⟩, ⟨"p5", "r", "g"⟩], [⟨"xf", "r", "g"⟩]⟩ :=
  (C4_tier_classification "x" none).2.2.2 _ _ (by decide) (by decide)

/-- C5: once the preferred tier holds 5 entries, the outer loop over the
remaining candidate entries stops and no later entry contributes to
either tier; consequently, six candidates whose single variants are all
eligible and preferred-tagged yield exactly the first five compounds, in
input encounter order. -/
theorem C5_outer_break (a : String) (am : Option String) :
    (∀ (s : ScanState) (es : List Entry), 5 ≤ s.pref.length →
      processEntries a am s es = s) ∧
    select [⟨[⟨"xa", "ra", ["news1"]⟩], [⟨["ga"]⟩]⟩,
        ⟨[⟨"xb", "rb", ["news1"]⟩], [⟨["gb"]⟩]⟩,
        ⟨[⟨"xc", "rc", ["news1"]⟩], [⟨["gc"]⟩]⟩,
        ⟨[⟨"xd", "rd", ["news1"]⟩], [⟨["gd"]⟩]⟩,
        ⟨[⟨"xe", "re", ["news1"]⟩], [⟨["ge"]⟩]⟩,
        ⟨[⟨"xf", "rf", ["news1"]⟩], [⟨["gf"]⟩]⟩] "x" none =
      [⟨"xa", "ra", "ga"⟩, ⟨"xb", "rb", "gb"⟩, ⟨"xc", "rc", "gc"⟩,
       ⟨"xd", "rd", "gd"⟩, ⟨"xe", "re", "ge"⟩] :=
  ⟨fun s es h => processEntries_stop a am s es h, by decide⟩

/-- C5, witness: the break conjunct applied to a concrete state with a
full preferred tier and a non-empty remaining entry list. -/
theorem C5_outer_break_witness :
    processEntries "x" none
        ⟨[⟨"p1", "r", "g"⟩, ⟨"p2", "r", "g"⟩, ⟨"p3", "r", "g"⟩,
          ⟨"p4", "r", "g"⟩, ⟨"p5", "r", "g"⟩], []⟩
        [⟨[⟨"xz", "r", ["news1"]⟩], [⟨["gz"]⟩]⟩] =
      ⟨[⟨"p1", "r", "g"⟩, ⟨"p2", "r", "g"⟩, ⟨"p3", "r", "g"⟩,
        ⟨"p4", "r", "g"⟩, ⟨"p5", "r", "g"⟩], []⟩ :=
  (C5_outer_break "x" none).1 _ _ (by decide)

/-- C6, counterexample: a variant whose only priority tag is the empty
string carries no non-empty priority tag, yet it is not discarded: the
code only checks `variant.priorities.length > 0`, so the variant reaches
the other tier and appears in the output. -/
theorem C6_counterexample :
    select [⟨[⟨"xa", "A", [""]⟩], [⟨["g1"]⟩]⟩] "x" none =
      [⟨"xa", "A", "g1"⟩] := by
  decide

/-- C6, amended: a variant is discarded for lack of priority exactly when
its priority-tag *list* is empty; the tags themselves are not inspected
for non-emptiness.  Removing all empty-priority-list variants from the
candidates leaves the selector's output unchanged. -/
theorem C6_priority_list_gate (cands : List Entry) (a : String)
    (am : Option String) :
    select (cands.map (fun e =>
        ⟨e.variants.filter (fun v => !v.priorities.isEmpty), e.meanings⟩))
        a am =
      select cands a am := by
  unfold select uniqueCompounds selectTiers
  rw [processEntries_filter a am cands ⟨[], []⟩]

/-- C7, counterexample: the claim asserts that for every input the
concatenated segment texts reproduce the non-bracket-syntax characters of
the input in order.  The one-character input `" "` contains no bracket
syntax at all, yet the segmenter drops the whitespace-only run silently
and returns no segments, so the concatenation is empty rather than
`" "`. -/
theorem C7_counterexample :
    (∀ c ∈ (" " : String).data, c ≠ '[' ∧ c ≠ ']' ∧ c ≠ '|') ∧
    segment (some " ") = [] ∧
    concatTexts (segment (some " ")) ≠ (" " : String).data := by
  decide

/-- C7, amended: concatenating the text fields of the returned segments
yields the input's characters in their original order as a subsequence
(plain runs and bracket base texts, left to right), but not every
non-bracket-syntax character is reproduced: whitespace-only runs, bracket
tokens whose base trims to empty, and malformed runs are omitted. -/
theorem C7_text_subsequence (s : String) :
    List.Sublist (concatTexts (segment (some s))) s.data := by
  unfold segment
  simpa [modePrefix] using segGo_sublist s.data (.plain [])

/-- C8: a bracket token splits at the *first* bar — the base may not
contain a bar, while the annotation runs from that bar to the closing
bracket and may contain further bars, which `emitBracket` strips out
rather than treating as delimiters — and consequently no produced reading
ever contains a bar character. -/
theorem C8_annotation_collapse (b ann r : List Char) (s : Option String) :
    ('|' ∉ b → ']' ∉ ann →
      segment (some ⟨'[' :: (b ++ '|' :: (ann ++ ']' :: r))⟩) =
        emitBracket b ann ++ segGo (.plain []) r) ∧
    (∀ seg ∈ segment s, ∀ rd, seg.reading = some rd → '|' ∉ rd.data) := by
  constructor
  · intro hb ha
    show segGo (.plain []) ('[' :: (b ++ '|' :: (ann ++ ']' :: r))) = _
    exact segGo_bracket b ann r hb ha
  · intro seg hs rd hrd
    cases s with
    | none => simp [segment] at hs
    | some str => exact no_bar_segGo str.data _ seg hs rd hrd

/-- C8, witness: the bracket equation applied to the concrete token
`[X|a|b]`: the annotation is `a|b` and the produced reading is `ab`. -/
theorem C8_annotation_collapse_witness :
    segment (some ⟨'[' :: ("X".data ++ '|' :: ("a|b".data ++ ']' :: []))⟩) =
      emitBracket "X".data "a|b".data ++ segGo (.plain []) [] :=
  (C8_annotation_collapse "X".data "a|b".data [] none).1 (by decide)
    (by decide)

/-- C9: both operations are total functions in this embedding; null and
empty input segment to the empty sequence, the empty candidate list
selects the empty list, and an all-ineligible candidate list selects the
empty list. -/
theorem C9_totality (cands : List Entry) (a : String) (am : Option String) :
    segment none = [] ∧ segment (some "") = [] ∧
    select [] a am = [] ∧
    ((∀ e ∈ cands, ∀ v ∈ e.variants, ∀ g, entryGloss e = some g →
        eligibleV a am g v = false) →
      select cands a am = []) := by
  refine ⟨rfl, rfl, rfl, fun h => ?_⟩
  unfold select uniqueCompounds selectTiers
  rw [processEntries_all_inel a am cands ⟨[], []⟩ h]
  rfl

/-- C9, witness: a concrete all-ineligible candidate list (its only
variant's written form equals the anchor) yields the empty output. -/
theorem C9_totality_witness :
    select [⟨[⟨"x", "r", ["news1"]⟩], [⟨["g1"]⟩]⟩] "x" none = [] := by
  refine (C9_totality [⟨[⟨"x", "r", ["news1"]⟩], [⟨["g1"]⟩]⟩]
    "x" none).2.2.2 ?_
  intro e he v hv g hg
  simp only [List.mem_singleton] at he
  subst he
  have hge : entryGloss ⟨[⟨"x", "r", ["news1"]⟩], [⟨["g1"]⟩]⟩ =
      some "g1" := by decide
  rw [hge] at hg
  cases hg
  simp only [List.mem_singleton] at hv
  subst hv
  decide

/-- C10: the selector reads an entry's gloss only as the first gloss of
the entry's first meaning; when that is missing or empty
(`entryGloss e = none`) every variant of the entry is skipped and the
entry contributes nothing to the output, wherever it sits in the
candidate list and regardless of its later meanings. -/
theorem C10_first_gloss_gate (e : Entry) (he : entryGloss e = none)
    (xs ys : List Entry) (a : String) (am : Option String) :
    select (xs ++ e :: ys) a am = select (xs ++ ys) a am := by
  unfold select uniqueCompounds selectTiers
  rw [processEntries_middle a am e he xs ⟨[], []⟩ ys]

/-- C10, witness: a concrete entry whose first meaning has no glosses but
whose second meaning carries the non-empty gloss `good` is skipped
entirely. -/
theorem C10_first_gloss_gate_witness :
    entryGloss ⟨[⟨"xz", "r", ["news1"]⟩], [⟨[]⟩, ⟨["good"]⟩]⟩ = none ∧
    select ([⟨[⟨"xa", "ra", ["news1"]⟩], [⟨["ga"]⟩]⟩] ++
        ⟨[⟨"xz", "r", ["news1"]⟩], [⟨[]⟩, ⟨["good"]⟩]⟩ ::
        [⟨[⟨"xb", "rb", ["news1"]⟩], [⟨["gb"]⟩]⟩]) "x" none =
      select ([⟨[⟨"xa", "ra", ["news1"]⟩], [⟨["ga"]⟩]⟩] ++
        [⟨[⟨"xb", "rb", ["news1"]⟩], [⟨["gb"]⟩]⟩]) "x" none :=
  ⟨by decide,
    C10_first_gloss_gate ⟨[⟨"xz", "r", ["news1"]⟩], [⟨[]⟩, ⟨["good"]⟩]⟩
      (by decide) _ _ "x" none⟩

end KanjiStudy
